import Mathlib

/-!
Verification of the dependency-analysis core of `cargo-dephell`
(`src/analysis.rs` and the CLI filter wiring in `src/main.rs`).

The program operates on an already-resolved package graph supplied by an
external graph provider (guppy).  We embed that graph shallowly: a package
identity is the (name, version, source) triple, a node carries the metadata
the analysis reads, and a dependency link is a (from-node, to-node, edge)
triple where the edge records whether it is a dev-only dependency (the
source fields `from` and `to` are reserved words in Lean and are embedded
as `frm` and `toPkg`).  Hash
sets and hash maps from the source are modelled as lists with set/assoc-map
semantics (insertion only when absent, lookup by key); only membership
matters to the properties below.

The build step, line counting and network metrics of `analyze_repo` are
out-of-scope external collaborators (spec section 6); the embedding keeps
the graph-derived fields they do not touch.
-/

set_option maxHeartbeats 1000000

/-- The (name, version, source) triple that uniquely identifies a package
(guppy `PackageId`; spec glossary "Package identity"). -/
structure PackageId where
  name : String
  version : String
  source : String
deriving DecidableEq, Repr

/-- The metadata of one node of the package graph that the analysis reads
(guppy `PackageMetadata`).  Its version accessor returns the version
component of the identity. -/
structure PackageNode where
  id : PackageId
  repository : Option String
  description : Option String
  manifest_path : String
deriving DecidableEq, Repr

def PackageNode.version (p : PackageNode) : String := p.id.version

def PackageNode.name (p : PackageNode) : String := p.id.name

/-- The data carried by one dependency edge (guppy `DependencyEdge`):
whether the edge is a dev-only dependency. -/
structure DependencyEdge where
  dev_only : Bool
deriving DecidableEq, Repr

/-- One directed dependency link of the graph (guppy `DependencyLink`):
source node, target node and edge data.  `frm` and `toPkg` stand for the
`from` and `to` fields of the source, both reserved words in Lean. -/
structure DependencyLink where
  frm : PackageNode
  toPkg : PackageNode
  edge : DependencyEdge
deriving DecidableEq, Repr

/-- The immutable package graph: its dependency links and its workspace
members (guppy `PackageGraph` with `workspace().member_ids()`). -/
structure PackageGraph where
  links : List DependencyLink
  workspace_members : List PackageNode
deriving DecidableEq, Repr

/-- Boolean membership test, modelling `HashSet::contains` /
`Vec::contains`. -/
def memB {α : Type} [DecidableEq α] (x : α) (S : List α) : Bool :=
  decide (x ∈ S)

/-- Insertion with set semantics, modelling `HashSet::insert`: a present
element is not duplicated. -/
def hsInsert {α : Type} [DecidableEq α] (S : List α) (x : α) : List α :=
  if x ∈ S then S else S ++ [x]

/-- `PackageRisk` from `analysis.rs`: the per-package record built by the
analysis. -/
structure PackageRisk where
  name : String
  versions : List String
  repo : Option String
  description : Option String
  manifest_path : String
  used : Bool
  transitive_dependencies : List PackageId
  root_importers : List PackageId
  exclusive_deps_introduced : List PackageId
  loc : Nat
  rust_loc : Nat
  unsafe_loc : Nat
  stargazers_count : Option Nat
  crates_io_dependent : Option Nat
deriving DecidableEq, Repr

/-- `PackageRisk::default()`: empty strings and sets, `None` options,
zero counters, `false` flags. -/
def PackageRisk.default : PackageRisk :=
  { name := ""
    versions := []
    repo := none
    description := none
    manifest_path := ""
    used := false
    transitive_dependencies := []
    root_importers := []
    exclusive_deps_introduced := []
    loc := 0
    rust_loc := 0
    unsafe_loc := 0
    stargazers_count := none
    crates_io_dependent := none }

/-- Lookup in the registry, modelling `HashMap::get` /
`HashMap::entry` inspection on the association list. -/
def lookupRisk (m : List (PackageId × PackageRisk)) (k : PackageId) :
    Option PackageRisk :=
  (m.find? (fun e => decide (e.1 = k))).map (fun e => e.2)

/-- `create_or_update_dependency` from `analysis.rs` lines 75-98: on an
occupied entry only the observed version string is inserted into
`versions`; on a vacant entry a fresh record is created from the link
target's metadata. -/
def create_or_update_dependency (analysis_result : List (PackageId × PackageRisk))
    (dep_link : DependencyLink) : List (PackageId × PackageRisk) :=
  match lookupRisk analysis_result dep_link.toPkg.id with
  | some _ =>
      analysis_result.map (fun e =>
        if e.1 = dep_link.toPkg.id then
          (e.1, { e.2 with versions := hsInsert e.2.versions dep_link.toPkg.version })
        else e)
  | none =>
      analysis_result ++ [(dep_link.toPkg.id,
        { PackageRisk.default with
            name := dep_link.toPkg.name
            versions := hsInsert PackageRisk.default.versions dep_link.toPkg.version
            repo := dep_link.toPkg.repository
            description := dep_link.toPkg.description
            manifest_path := dep_link.toPkg.manifest_path })]

/-- `package_graph.dep_links(pid)`: the outgoing links of a package. -/
def PackageGraph.dep_links (g : PackageGraph) (pid : PackageId) :
    List DependencyLink :=
  g.links.filter (fun l => decide (l.frm.id = pid))

/-- The targets reachable in one step from the id set `S` that are not in
`S` yet; one round of the forward-reachability saturation that models
guppy's `select_forward`. -/
def nextTargets (g : PackageGraph) (S : List PackageId) : List PackageId :=
  ((g.links.filter (fun l => memB l.frm.id S)).map (fun l => l.toPkg.id)).filter
    (fun x => !(memB x S))

/-- Fuelled saturation of forward reachability. -/
def reachAux (g : PackageGraph) : Nat → List PackageId → List PackageId
  | 0, S => S
  | Nat.succ n, S => reachAux g n (S ++ nextTargets g S)

/-- The ids reachable in zero or more steps from `S`, following links of
every kind: the package set of guppy's `select_forward(S)`. -/
def reachIds (g : PackageGraph) (S : List PackageId) : List PackageId :=
  reachAux g g.links.length S

/-- The links of guppy's `select_forward(S).into_iter_links(..)`: every
link whose source is forward-reachable from `S`. -/
def selectForwardLinks (g : PackageGraph) (S : List PackageId) :
    List DependencyLink :=
  g.links.filter (fun l => memB l.frm.id (reachIds g S))

/-- `root_crates` of `analyze_repo`: the identities of the workspace
members. -/
def rootIds (g : PackageGraph) : List PackageId :=
  g.workspace_members.map (fun p => p.id)

/-- `root_crates_to_analyze` of `analyze_repo` lines 151-171: keep the
allow-listed names when `packages` is given, else drop the deny-listed
names when `to_ignore` is given, else keep every workspace member. -/
def analyzedRoots (g : PackageGraph) (packages : Option (List String))
    (to_ignore : Option (List String)) : List PackageId :=
  match packages with
  | some ps => (rootIds g).filter (fun pid => memB pid.name ps)
  | none =>
      match to_ignore with
      | some ig => (rootIds g).filter (fun pid => !(memB pid.name ig))
      | none => rootIds g

/-- One iteration of the direct-dependency loop (`analyze_repo` lines
186-200): skip dev-only links, skip links into root crates, otherwise
record the target as a main dependency and create or update its registry
record. -/
def processLink (root_crates : List PackageId)
    (acc : List PackageId × List (PackageId × PackageRisk))
    (dep_link : DependencyLink) :
    List PackageId × List (PackageId × PackageRisk) :=
  if dep_link.edge.dev_only then acc
  else if dep_link.toPkg.id ∈ root_crates then acc
  else (hsInsert acc.1 dep_link.toPkg.id,
        create_or_update_dependency acc.2 dep_link)

/-- The direct-dependency collection loop of `analyze_repo` lines 185-200:
for each analyzed root, process each of its outgoing links. -/
def collectDirect (g : PackageGraph)
    (root_crates roots_to_analyze : List PackageId) :
    List PackageId × List (PackageId × PackageRisk) :=
  roots_to_analyze.foldl
    (fun acc root_crate => (g.dep_links root_crate).foldl (processLink root_crates) acc)
    ([], [])

/-- One iteration of the transitive-dependency loop (`analyze_repo` lines
208-218): skip dev-only links, skip links into root crates, otherwise
create or update the registry record of the target. -/
def processTransLink (root_crates : List PackageId)
    (m : List (PackageId × PackageRisk)) (dep_link : DependencyLink) :
    List (PackageId × PackageRisk) :=
  if dep_link.edge.dev_only then m
  else if dep_link.toPkg.id ∈ root_crates then m
  else create_or_update_dependency m dep_link

/-- The one-step edge relation of the graph: some link goes from `a`
to `b`. -/
def edgeRel (g : PackageGraph) (a b : PackageId) : Prop :=
  ∃ l ∈ g.links, l.frm.id = a ∧ l.toPkg.id = b

/-- The acyclicity invariant the spec assumes of the input graph: no
identity reaches itself through one or more edges. -/
def AcyclicGraph (g : PackageGraph) : Prop :=
  ∀ n : PackageId, ¬ Relation.TransGen (edgeRel g) n n

/-- The graph restricted to the edges the spec's closure definition
follows: non-dev edges whose target is not a root crate (spec sections
4.2/4.3). -/
def filteredGraph (g : PackageGraph) (root_crates : List PackageId) :
    PackageGraph :=
  { links := g.links.filter
      (fun l => !l.edge.dev_only && !(memB l.toPkg.id root_crates))
    workspace_members := g.workspace_members }

/-- The graph restricted to its non-dev edges; used to phrase
"reachable only through a dev-only edge". -/
def nonDevGraph (g : PackageGraph) : PackageGraph :=
  { links := g.links.filter (fun l => !l.edge.dev_only)
    workspace_members := g.workspace_members }

/-- The spec's transitive closure of one identity (spec section 4.3):
identities reachable through one or more non-dev, non-root-target
edges. -/
def specClosure (g : PackageGraph) (root_crates : List PackageId)
    (n : PackageId) : List PackageId :=
  (selectForwardLinks (filteredGraph g root_crates) [n]).map (fun l => l.toPkg.id)

/-- Every identity mentioned by the graph: workspace members and both
endpoints of every link. -/
def allIds (g : PackageGraph) : List PackageId :=
  g.workspace_members.map (fun p => p.id) ++
    g.links.map (fun l => l.frm.id) ++ g.links.map (fun l => l.toPkg.id)

/-- Spec section 4.5: main dependency `d` owns identity `n` when `n` is
in the closure of `d` or `n = d`. -/
def ownedBy (g : PackageGraph) (root_crates : List PackageId)
    (d n : PackageId) : Bool :=
  memB n (specClosure g root_crates d) || decide (n = d)

/-- Spec section 4.5: the owning set of identity `n` among the main
dependencies (the reverse index of the exclusive-introduction
algorithm). -/
def mainOwners (g : PackageGraph) (root_crates main_dependencies : List PackageId)
    (n : PackageId) : List PackageId :=
  main_dependencies.filter (fun d => ownedBy g root_crates d n)

/-- Modelled from the spec: `metrics::get_exclusive_deps` lives in
`src/metrics.rs`, which is not part of the sources; spec section 4.5
defines it by the owner-count algorithm: an identity with owner-count
exactly one belongs to that single owner's exclusive set, an identity
with owner-count at least two belongs to none.  The root set and the
main-dependency set the spec phrases the definition over are passed as
arguments. -/
def get_exclusive_deps (g : PackageGraph)
    (root_crates main_dependencies : List PackageId) (d : PackageId) :
    List PackageId :=
  (allIds g).filter (fun n =>
    decide ((mainOwners g root_crates main_dependencies n).length = 1) &&
      memB d (mainOwners g root_crates main_dependencies n))

/-- The direct, non-dev, non-root-target targets of one root (spec
section 4.2's qualifying edges), used by the root-importer
attribution. -/
def directTargets (g : PackageGraph) (root_crates : List PackageId)
    (r : PackageId) : List PackageId :=
  ((g.dep_links r).filter
      (fun l => !l.edge.dev_only && !(memB l.toPkg.id root_crates))).map
    (fun l => l.toPkg.id)

/-- Modelled from the spec: `metrics::get_root_importers` lives in
`src/metrics.rs`, which is not part of the sources; spec section 4.4
marks every identity in a root's direct targets or in one of their
closures as imported by that root. -/
def get_root_importers (g : PackageGraph)
    (root_crates roots_to_analyze : List PackageId) (pid : PackageId) :
    List PackageId :=
  roots_to_analyze.filter (fun r =>
    (directTargets g root_crates r).any
      (fun t => decide (t = pid) || memB pid (specClosure g root_crates t)))

/-- The per-record analysis step (`analyze_repo` lines 245-262): the
transitive-dependency set is every target of a link of
`select_forward(package_id)` — with no dev-only or root-target filtering —
and the root-importer and exclusive-introduction fields come from the
metrics component.  The build-dependent and network-dependent fields
(`used`, line counts, stars, dependents) belong to external collaborators
and are left untouched here. -/
def analyzeEntry (g : PackageGraph)
    (root_crates roots_to_analyze main_dependencies : List PackageId)
    (e : PackageId × PackageRisk) : PackageId × PackageRisk :=
  (e.1, { e.2 with
    transitive_dependencies := (selectForwardLinks g [e.1]).map (fun l => l.toPkg.id)
    root_importers := get_root_importers g root_crates roots_to_analyze e.1
    exclusive_deps_introduced :=
      get_exclusive_deps g root_crates main_dependencies e.1 })

/-- `analyze_repo` from `analysis.rs` lines 117-311, over the graph the
external provider supplies: resolve the root set, fail when it is empty,
collect direct dependencies into the main-dependency set and the
registry, walk forward from the main dependencies to complete the
registry, then fill the graph-derived analysis fields of every record and
return the analyzed root names, the main dependencies and the
registry. -/
def analyze_repo (package_graph : PackageGraph)
    (packages : Option (List String)) (to_ignore : Option (List String)) :
    Except String (List String × List PackageId × List (PackageId × PackageRisk)) :=
  let root_crates := rootIds package_graph
  let root_crates_to_analyze := analyzedRoots package_graph packages to_ignore
  if root_crates_to_analyze.length = 0 then
    Except.error "dephell: no package to analyze was found"
  else
    let step1 := collectDirect package_graph root_crates root_crates_to_analyze
    let main_dependencies := step1.1
    let analysis_result :=
      (selectForwardLinks package_graph main_dependencies).foldl
        (processTransLink root_crates) step1.2
    let analysis_result := analysis_result.map
      (analyzeEntry package_graph root_crates root_crates_to_analyze main_dependencies)
    Except.ok (root_crates_to_analyze.map (fun pid => pid.name),
      main_dependencies, analysis_result)

/-- The CLI error clap raises for conflicting arguments: `main.rs` lines
84-92 declare the `-i`/`--ignore-workspace` argument with
`conflicts_with("package")`, so `get_matches()` rejects a command line
carrying both `-p` and `-i` before any analysis starts. -/
def cliConflictMsg : String :=
  "error: the argument cannot be used with one or more of the other specified arguments"

/-- The argument-resolution step of `main` as far as the two root-set
filters are concerned: clap's declared conflict makes a command line with
both an allow-list and a deny-list fail, and otherwise both options are
passed through to the analysis. -/
def parse_cli_filters (packages : Option (List String))
    (to_ignore : Option (List String)) :
    Except String (Option (List String) × Option (List String)) :=
  match packages, to_ignore with
  | some _, some _ => Except.error cliConflictMsg
  | ps, ig => Except.ok (ps, ig)

/-- `main`'s pipeline from parsed filters to analysis result: argument
resolution first, then `analyze_repo` (`main.rs` lines 149-166). -/
def run_analysis (package_graph : PackageGraph)
    (packages : Option (List String)) (to_ignore : Option (List String)) :
    Except String (List String × List PackageId × List (PackageId × PackageRisk)) :=
  match parse_cli_filters packages to_ignore with
  | Except.error e => Except.error e
  | Except.ok (ps, ig) => analyze_repo package_graph ps ig

/-- The termination measure of the reachability saturation: the number of
links whose target the id set does not contain yet. -/
def missingCount (g : PackageGraph) (S : List PackageId) : Nat :=
  (g.links.filter (fun l => !(memB l.toPkg.id S))).length

/-- The registry invariant behind claim C10: because the registry key is
the full (name, version, source) identity, each record's `versions` set is
the singleton of the version component of its key. -/
def VersionsInv (m : List (PackageId × PackageRisk)) : Prop :=
  ∀ e ∈ m, e.2.versions = [e.1.version]

/-- Predicate of a link qualifying for collection: not dev-only and not
targeting a root crate. -/
def Collectible (rc : List PackageId) (l : DependencyLink) : Prop :=
  l.edge.dev_only = false ∧ l.toPkg.id ∉ rc

/-!  Concrete graphs used by the counterexamples and witnesses below. -/

/-- A package identity at version 1.0.0 from one registry source. -/
def mkId (n : String) : PackageId :=
  { name := n, version := "1.0.0", source := "registry" }

/-- A node carrying the identity `mkId n` and no optional metadata. -/
def mkNode (n : String) : PackageNode :=
  { id := mkId n, repository := none, description := none, manifest_path := n }

/-- A dependency link between two such nodes. -/
def mkLink (a b : String) (dev : Bool) : DependencyLink :=
  { frm := mkNode a, toPkg := mkNode b, edge := { dev_only := dev } }

/-- Whether an analysis run produced a result. -/
def exceptIsOk {α : Type} (res : Except String α) : Bool :=
  match res with
  | Except.ok _ => true
  | Except.error _ => false

/-- The keys of the registry of an analysis result (empty on failure). -/
def registryKeysOf
    (res : Except String (List String × List PackageId × List (PackageId × PackageRisk))) :
    List PackageId :=
  match res with
  | Except.error _ => []
  | Except.ok out => out.2.2.map Prod.fst

/-- The `transitive_dependencies` field stored for key `k` in the registry
of an analysis result (empty on failure or when `k` is absent). -/
def transDepsOf
    (res : Except String (List String × List PackageId × List (PackageId × PackageRisk)))
    (k : PackageId) : List PackageId :=
  match res with
  | Except.error _ => []
  | Except.ok out =>
    match lookupRisk out.2.2 k with
    | none => []
    | some r => r.transitive_dependencies

/-- Workspace root `R` depends normally on `M`; `M` has a dev-only link to
`D`.  The closure the code stores for `M` follows the dev-only link. -/
def gDevClosure : PackageGraph :=
  { links := [mkLink "R" "M" false, mkLink "M" "D" true]
    workspace_members := [mkNode "R"] }

/-- Workspace root `R` depends normally on `M`; `M` has a dev-only link to
`A`; `A` depends normally on `B`.  Every path from `R` to `B` crosses the
dev-only link, yet the collection loop inserts `B`. -/
def gDevPath : PackageGraph :=
  { links := [mkLink "R" "M" false, mkLink "M" "A" true, mkLink "A" "B" false]
    workspace_members := [mkNode "R"] }

/-- Spec scenario B: root `R` depends on `X` only; `X` depends on `P` and
`Q`. -/
def gScenB : PackageGraph :=
  { links := [mkLink "R" "X" false, mkLink "X" "P" false, mkLink "X" "Q" false]
    workspace_members := [mkNode "R"] }

/-- Spec scenario C: a workspace with members `A` and `B` and no links. -/
def gAB : PackageGraph :=
  { links := [], workspace_members := [mkNode "A", mkNode "B"] }

/-- A rank function witnessing that the concrete graphs above are acyclic:
every link goes from a lower-ranked to a higher-ranked name. -/
def nameRank (p : PackageId) : Nat :=
  if p.name = "R" then 0
  else if p.name = "M" then 1
  else if p.name = "X" then 1
  else if p.name = "A" then 2
  else if p.name = "B" then 3
  else 2

/-- The registry record the analysis of `gDevClosure` produces for `M`. -/
def riskMDev : PackageRisk :=
  { name := "M", versions := ["1.0.0"], repo := none, description := none
    manifest_path := "M", used := false
    transitive_dependencies := [mkId "D"]
    root_importers := [mkId "R"]
    exclusive_deps_introduced := [mkId "M", mkId "M"]
    loc := 0, rust_loc := 0, unsafe_loc := 0
    stargazers_count := none, crates_io_dependent := none }

/-- The registry record the analysis of `gDevPath` produces for `M`. -/
def riskMPath : PackageRisk :=
  { name := "M", versions := ["1.0.0"], repo := none, description := none
    manifest_path := "M", used := false
    transitive_dependencies := [mkId "A", mkId "B"]
    root_importers := [mkId "R"]
    exclusive_deps_introduced := [mkId "M", mkId "M"]
    loc := 0, rust_loc := 0, unsafe_loc := 0
    stargazers_count := none, crates_io_dependent := none }

/-- The registry record the analysis of `gDevPath` produces for `B`. -/
def riskBPath : PackageRisk :=
  { name := "B", versions := ["1.0.0"], repo := none, description := none
    manifest_path := "B", used := false
    transitive_dependencies := []
    root_importers := []
    exclusive_deps_introduced := []
    loc := 0, rust_loc := 0, unsafe_loc := 0
    stargazers_count := none, crates_io_dependent := none }

/-- The registry record the analysis of `gScenB` produces for `X`. -/
def riskXScenB : PackageRisk :=
  { name := "X", versions := ["1.0.0"], repo := none, description := none
    manifest_path := "X", used := false
    transitive_dependencies := [mkId "P", mkId "Q"]
    root_importers := [mkId "R"]
    exclusive_deps_introduced :=
      [mkId "X", mkId "X", mkId "X", mkId "P", mkId "Q"]
    loc := 0, rust_loc := 0, unsafe_loc := 0
    stargazers_count := none, crates_io_dependent := none }

/-- The registry record the analysis of `gScenB` produces for `P`. -/
def riskPScenB : PackageRisk :=
  { name := "P", versions := ["1.0.0"], repo := none, description := none
    manifest_path := "P", used := false
    transitive_dependencies := []
    root_importers := [mkId "R"]
    exclusive_deps_introduced := []
    loc := 0, rust_loc := 0, unsafe_loc := 0
    stargazers_count := none, crates_io_dependent := none }

/-- The registry record the analysis of `gScenB` produces for `Q`. -/
def riskQScenB : PackageRisk :=
  { name := "Q", versions := ["1.0.0"], repo := none, description := none
    manifest_path := "Q", used := false
    transitive_dependencies := []
    root_importers := [mkId "R"]
    exclusive_deps_introduced := []
    loc := 0, rust_loc := 0, unsafe_loc := 0
    stargazers_count := none, crates_io_dependent := none }

/-!  Basic facts about the set and map operations of the embedding. -/

theorem memB_eq_true {α : Type} [DecidableEq α] {x : α} {S : List α} :
    memB x S = true ↔ x ∈ S := by
  simp [memB]

theorem mem_hsInsert {α : Type} [DecidableEq α] {y x : α} {S : List α} :
    y ∈ hsInsert S x ↔ y ∈ S ∨ y = x := by
  unfold hsInsert
  split
  · rename_i hx
    constructor
    · exact Or.inl
    · rintro (h | rfl)
      · exact h
      · exact hx
  · simp [List.mem_append]

theorem nodup_hsInsert {α : Type} [DecidableEq α] {S : List α} (x : α)
    (h : S.Nodup) : (hsInsert S x).Nodup := by
  unfold hsInsert
  split
  · exact h
  · rename_i hx
    simp [List.nodup_append, h, hx]

/-!  Forward reachability: the fuelled saturation `reachIds` computes the
reflexive-transitive closure of the edge relation. -/

theorem mem_nextTargets {g : PackageGraph} {S : List PackageId} {x : PackageId} :
    x ∈ nextTargets g S ↔
      ((∃ l ∈ g.links, l.frm.id ∈ S ∧ l.toPkg.id = x) ∧ x ∉ S) := by
  simp only [nextTargets, List.mem_filter, List.mem_map, memB,
    Bool.not_eq_true', decide_eq_false_iff_not, decide_eq_true_eq]
  aesop

theorem reachAux_subset (g : PackageGraph) :
    ∀ (fuel : Nat) (S : List PackageId), S ⊆ reachAux g fuel S := by
  intro fuel
  induction fuel with
  | zero => intro S x hx; simpa [reachAux] using hx
  | succ n ih =>
    intro S x hx
    simp only [reachAux]
    exact ih (S ++ nextTargets g S) (List.mem_append_left _ hx)

theorem reachAux_sound (g : PackageGraph) :
    ∀ (fuel : Nat) (S : List PackageId) (x : PackageId), x ∈ reachAux g fuel S →
      ∃ s ∈ S, Relation.ReflTransGen (edgeRel g) s x := by
  intro fuel
  induction fuel with
  | zero => intro S x hx; exact ⟨x, hx, Relation.ReflTransGen.refl⟩
  | succ n ih =>
    intro S x hx
    simp only [reachAux] at hx
    obtain ⟨s, hs, hrtg⟩ := ih _ _ hx
    rcases List.mem_append.1 hs with h | h
    · exact ⟨s, h, hrtg⟩
    · obtain ⟨⟨l, hl, hfrm, rfl⟩, _⟩ := mem_nextTargets.1 h
      exact ⟨l.frm.id, hfrm, Relation.ReflTransGen.head ⟨l, hl, rfl, rfl⟩ hrtg⟩

theorem nextTargets_empty_of_missingCount_zero {g : PackageGraph}
    {S : List PackageId} (h : missingCount g S = 0) : nextTargets g S = [] := by
  rw [List.eq_nil_iff_forall_not_mem]
  intro x hx
  obtain ⟨⟨l, hl, _, rfl⟩, hxS⟩ := mem_nextTargets.1 hx
  have hmem : l ∈ g.links.filter (fun l => !(memB l.toPkg.id S)) := by
    rw [List.mem_filter]
    exact ⟨hl, by simp [memB, hxS]⟩
  rw [missingCount, List.length_eq_zero] at h
  rw [h] at hmem
  exact absurd hmem (List.not_mem_nil l)

theorem reachAux_of_next_empty (g : PackageGraph) :
    ∀ (fuel : Nat) (S : List PackageId), nextTargets g S = [] →
      reachAux g fuel S = S := by
  intro fuel
  induction fuel with
  | zero => intro S _; rfl
  | succ n ih =>
    intro S h
    simp only [reachAux, h, List.append_nil]
    exact ih S h

theorem missingCount_lt {g : PackageGraph} {S : List PackageId}
    (h : nextTargets g S ≠ []) :
    missingCount g (S ++ nextTargets g S) < missingCount g S := by
  obtain ⟨x, hx⟩ : ∃ x, x ∈ nextTargets g S := List.exists_mem_of_ne_nil _ h
  obtain ⟨⟨l₀, hl₀, _, rfl⟩, hxS⟩ := mem_nextTargets.1 hx
  have hsub : List.Sublist
      (g.links.filter (fun l => !(memB l.toPkg.id (S ++ nextTargets g S))))
      (g.links.filter (fun l => !(memB l.toPkg.id S))) := by
    apply List.monotone_filter_right
    intro a ha
    simp only [Bool.not_eq_true', decide_eq_false_iff_not, memB, List.mem_append] at ha ⊢
    intro hmem
    exact ha (Or.inl hmem)
  have hle := hsub.length_le
  rcases Nat.lt_or_ge (missingCount g (S ++ nextTargets g S)) (missingCount g S) with hlt | hge
  · exact hlt
  · exfalso
    have heq : missingCount g (S ++ nextTargets g S) = missingCount g S :=
      Nat.le_antisymm hle hge
    have hlists := hsub.eq_of_length heq
    have hmem₀ : l₀ ∈ g.links.filter (fun l => !(memB l.toPkg.id S)) := by
      rw [List.mem_filter]
      exact ⟨hl₀, by simp [memB, hxS]⟩
    rw [← hlists, List.mem_filter] at hmem₀
    have : l₀.toPkg.id ∈ S ++ nextTargets g S := List.mem_append_right _ hx
    simp [memB, this] at hmem₀

theorem reachAux_saturated (g : PackageGraph) :
    ∀ (fuel : Nat) (S : List PackageId), missingCount g S ≤ fuel →
      nextTargets g (reachAux g fuel S) = [] := by
  intro fuel
  induction fuel with
  | zero =>
    intro S h
    exact nextTargets_empty_of_missingCount_zero (Nat.le_zero.1 h)
  | succ n ih =>
    intro S h
    by_cases hn : nextTargets g S = []
    · simp only [reachAux, hn, List.append_nil]
      rw [reachAux_of_next_empty g n S hn]
      exact hn
    · simp only [reachAux]
      exact ih _ (Nat.le_of_lt_succ (Nat.lt_of_lt_of_le (missingCount_lt hn) h))

theorem reachIds_closed {g : PackageGraph} {S : List PackageId} :
    ∀ l ∈ g.links, l.frm.id ∈ reachIds g S → l.toPkg.id ∈ reachIds g S := by
  intro l hl hfrm
  have hsat : nextTargets g (reachIds g S) = [] := by
    apply reachAux_saturated
    exact List.length_filter_le _ _
  by_contra hto
  have : l.toPkg.id ∈ nextTargets g (reachIds g S) :=
    mem_nextTargets.2 ⟨⟨l, hl, hfrm, rfl⟩, hto⟩
  rw [hsat] at this
  exact absurd this (List.not_mem_nil _)

theorem reachIds_subset (g : PackageGraph) (S : List PackageId) :
    S ⊆ reachIds g S :=
  reachAux_subset g g.links.length S

theorem reachIds_complete {g : PackageGraph} {S : List PackageId}
    {s x : PackageId} (hs : s ∈ S)
    (h : Relation.ReflTransGen (edgeRel g) s x) : x ∈ reachIds g S := by
  induction h with
  | refl => exact reachIds_subset g S hs
  | tail _ hbc ih =>
    obtain ⟨l, hl, hfrm, hto⟩ := hbc
    rw [← hto]
    exact reachIds_closed l hl (hfrm ▸ ih)

theorem mem_reachIds {g : PackageGraph} {S : List PackageId} {x : PackageId} :
    x ∈ reachIds g S ↔ ∃ s ∈ S, Relation.ReflTransGen (edgeRel g) s x := by
  constructor
  · exact reachAux_sound g g.links.length S x
  · rintro ⟨s, hs, h⟩
    exact reachIds_complete hs h

theorem mem_selectForwardLinks {g : PackageGraph} {S : List PackageId}
    {l : DependencyLink} :
    l ∈ selectForwardLinks g S ↔ l ∈ g.links ∧ l.frm.id ∈ reachIds g S := by
  simp [selectForwardLinks, List.mem_filter, memB_eq_true]

/-- The target set of the links of `select_forward(n)` — the value the
code stores in `transitive_dependencies` — is exactly the set of
identities reachable from `n` through one or more links of any kind. -/
theorem mem_forwardTargets_iff (g : PackageGraph) (n m : PackageId) :
    m ∈ (selectForwardLinks g [n]).map (fun l => l.toPkg.id) ↔
      Relation.TransGen (edgeRel g) n m := by
  rw [Relation.TransGen.tail'_iff]
  constructor
  · intro hm
    obtain ⟨l, hl, rfl⟩ := List.mem_map.1 hm
    obtain ⟨hlinks, hfrm⟩ := mem_selectForwardLinks.1 hl
    obtain ⟨s, hs, hrtg⟩ := mem_reachIds.1 hfrm
    rw [List.mem_singleton] at hs
    subst hs
    exact ⟨l.frm.id, hrtg, l, hlinks, rfl, rfl⟩
  · rintro ⟨b, hrtg, l, hl, hfrm, hto⟩
    apply List.mem_map.2
    refine ⟨l, mem_selectForwardLinks.2 ⟨hl, ?_⟩, hto⟩
    rw [hfrm]
    exact mem_reachIds.2 ⟨n, List.mem_singleton_self n, hrtg⟩

/-!  Facts about the registry operations. -/

theorem lookupRisk_cons (e : PackageId × PackageRisk)
    (m : List (PackageId × PackageRisk)) (k : PackageId) :
    lookupRisk (e :: m) k = if e.1 = k then some e.2 else lookupRisk m k := by
  by_cases h : e.1 = k
  · simp [lookupRisk, List.find?_cons_of_pos, h]
  · simp [lookupRisk, List.find?_cons_of_neg, h]

theorem lookupRisk_isSome_iff {m : List (PackageId × PackageRisk)}
    {k : PackageId} : (lookupRisk m k).isSome ↔ k ∈ m.map Prod.fst := by
  induction m with
  | nil => simp [lookupRisk]
  | cons e m ih =>
    rw [lookupRisk_cons]
    by_cases h : e.1 = k
    · simp [h]
    · simp only [if_neg h, ih, List.map_cons, List.mem_cons]
      constructor
      · exact Or.inr
      · rintro (rfl | hm)
        · exact absurd rfl h
        · exact hm

theorem lookupRisk_map_update (m : List (PackageId × PackageRisk))
    (tid : PackageId) (f : PackageRisk → PackageRisk) (k : PackageId) :
    lookupRisk (m.map (fun e => if e.1 = tid then (e.1, f e.2) else e)) k =
      (lookupRisk m k).map (fun r => if k = tid then f r else r) := by
  induction m with
  | nil => rfl
  | cons e m ih =>
    rw [List.map_cons, lookupRisk_cons, lookupRisk_cons]
    have hfst : (if e.1 = tid then (e.1, f e.2) else e).1 = e.1 := by
      split <;> rfl
    rw [hfst]
    by_cases hk : e.1 = k
    · subst hk
      simp only [if_pos rfl, Option.map_some]
      by_cases ht : e.1 = tid
      · simp [ht, if_pos ht]
      · simp [ht, if_neg ht]
    · rw [if_neg hk, if_neg hk, ih]

theorem lookupRisk_append_left {m₁ m₂ : List (PackageId × PackageRisk)}
    {k : PackageId} {r : PackageRisk} (h : lookupRisk m₁ k = some r) :
    lookupRisk (m₁ ++ m₂) k = some r := by
  induction m₁ with
  | nil => simp [lookupRisk] at h
  | cons e m ih =>
    rw [lookupRisk_cons] at h
    rw [List.cons_append, lookupRisk_cons]
    by_cases he : e.1 = k
    · rw [if_pos he] at h ⊢; exact h
    · rw [if_neg he] at h ⊢; exact ih h

theorem create_or_update_occupied {m : List (PackageId × PackageRisk)}
    {l : DependencyLink} {r : PackageRisk}
    (h : lookupRisk m l.toPkg.id = some r) :
    lookupRisk (create_or_update_dependency m l) l.toPkg.id =
      some { r with versions := hsInsert r.versions l.toPkg.version } ∧
    ∀ k, k ≠ l.toPkg.id →
      lookupRisk (create_or_update_dependency m l) k = lookupRisk m k := by
  have hupd := lookupRisk_map_update m l.toPkg.id
    (fun r => { r with versions := hsInsert r.versions l.toPkg.version })
  constructor
  · have h1 := hupd l.toPkg.id
    rw [h] at h1
    simp only [Option.map_some', if_pos rfl] at h1
    simp only [create_or_update_dependency, h]
    exact h1
  · intro k hk
    have h1 := hupd k
    simp only [if_neg hk] at h1
    rw [show Option.map (fun r => r) (lookupRisk m k) = lookupRisk m k from by
      cases lookupRisk m k <;> rfl] at h1
    simp only [create_or_update_dependency, h]
    exact h1

theorem create_or_update_keeps_isSome (m : List (PackageId × PackageRisk))
    (l : DependencyLink) (k : PackageId)
    (h : (lookupRisk m k).isSome) :
    (lookupRisk (create_or_update_dependency m l) k).isSome := by
  cases hlook : lookupRisk m l.toPkg.id with
  | some r =>
    by_cases hk : k = l.toPkg.id
    · subst hk
      rw [(create_or_update_occupied hlook).1]
      rfl
    · rw [(create_or_update_occupied hlook).2 k hk]
      exact h
  | none =>
    obtain ⟨r, hr⟩ := Option.isSome_iff_exists.1 h
    simp only [create_or_update_dependency, hlook]
    rw [lookupRisk_append_left hr]
    rfl

theorem keys_create_or_update (m : List (PackageId × PackageRisk))
    (l : DependencyLink) (x : PackageId) :
    x ∈ (create_or_update_dependency m l).map Prod.fst ↔
      x ∈ m.map Prod.fst ∨ x = l.toPkg.id := by
  cases hlook : lookupRisk m l.toPkg.id with
  | some r =>
    have htid : l.toPkg.id ∈ m.map Prod.fst :=
      lookupRisk_isSome_iff.1 (by rw [hlook]; rfl)
    simp only [create_or_update_dependency, hlook]
    rw [List.map_map]
    have hcomp : (Prod.fst ∘ fun e : PackageId × PackageRisk =>
        if e.1 = l.toPkg.id then
          (e.1, { e.2 with versions := hsInsert e.2.versions l.toPkg.version })
        else e) = Prod.fst := by
      funext e
      simp only [Function.comp_apply]
      split <;> rfl
    rw [hcomp]
    constructor
    · exact Or.inl
    · rintro (hm | rfl)
      · exact hm
      · exact htid
  | none =>
    simp only [create_or_update_dependency, hlook]
    rw [List.map_append]
    simp [List.mem_append]

theorem versionsInv_create_or_update {m : List (PackageId × PackageRisk)}
    (h : VersionsInv m) (l : DependencyLink) :
    VersionsInv (create_or_update_dependency m l) := by
  cases hlook : lookupRisk m l.toPkg.id with
  | some r =>
    simp only [create_or_update_dependency, hlook]
    intro e' he'
    obtain ⟨e, he, rfl⟩ := List.mem_map.1 he'
    by_cases hid : e.1 = l.toPkg.id
    · rw [if_pos hid]
      have hv := h e he
      have hver : l.toPkg.version = e.1.version := by
        rw [hid]; rfl
      simp only [hv, hver]
      show hsInsert [e.1.version] e.1.version = [e.1.version]
      simp [hsInsert]
    · rw [if_neg hid]
      exact h e he
  | none =>
    simp only [create_or_update_dependency, hlook]
    intro e' he'
    rcases List.mem_append.1 he' with hm | hnew
    · exact h e' hm
    · rw [List.mem_singleton] at hnew
      subst hnew
      show hsInsert PackageRisk.default.versions l.toPkg.version =
        [l.toPkg.id.version]
      simp [hsInsert, PackageRisk.default, PackageNode.version]

/-!  Characterizations of the two collection loops. -/

theorem mem_dep_links {g : PackageGraph} {r : PackageId} {l : DependencyLink} :
    l ∈ g.dep_links r ↔ l ∈ g.links ∧ l.frm.id = r := by
  simp [PackageGraph.dep_links, List.mem_filter]

theorem foldl_processLink_fst (rc : List PackageId) :
    ∀ (L : List DependencyLink)
      (acc : List PackageId × List (PackageId × PackageRisk)) (x : PackageId),
      (x ∈ (L.foldl (processLink rc) acc).1 ↔
        x ∈ acc.1 ∨ ∃ l ∈ L, Collectible rc l ∧ l.toPkg.id = x) := by
  intro L
  induction L with
  | nil => simp
  | cons l L ih =>
    intro acc x
    rw [List.foldl_cons, ih]
    unfold processLink
    by_cases hdev : l.edge.dev_only
    · rw [if_pos hdev]
      simp only [List.mem_cons]
      constructor
      · rintro (h | h)
        · exact Or.inl h
        · obtain ⟨l', hl', hc, hx⟩ := h
          exact Or.inr ⟨l', Or.inr hl', hc, hx⟩
      · rintro (h | ⟨l', hl', hc, hx⟩)
        · exact Or.inl h
        · rcases hl' with rfl | hl'
          · exact absurd hdev (by simp [hc.1])
          · exact Or.inr ⟨l', hl', hc, hx⟩
    · rw [if_neg hdev]
      by_cases hrc : l.toPkg.id ∈ rc
      · rw [if_pos hrc]
        simp only [List.mem_cons]
        constructor
        · rintro (h | h)
          · exact Or.inl h
          · obtain ⟨l', hl', hc, hx⟩ := h
            exact Or.inr ⟨l', Or.inr hl', hc, hx⟩
        · rintro (h | ⟨l', hl', hc, hx⟩)
          · exact Or.inl h
          · rcases hl' with rfl | hl'
            · exact absurd hrc hc.2
            · exact Or.inr ⟨l', hl', hc, hx⟩
      · rw [if_neg hrc]
        simp only [mem_hsInsert, List.mem_cons]
        constructor
        · rintro ((h | rfl) | h)
          · exact Or.inl h
          · exact Or.inr ⟨l, Or.inl rfl,
              ⟨Bool.eq_false_iff.2 hdev, hrc⟩, rfl⟩
          · obtain ⟨l', hl', hc, hx⟩ := h
            exact Or.inr ⟨l', Or.inr hl', hc, hx⟩
        · rintro (h | ⟨l', hl', hc, hx⟩)
          · exact Or.inl (Or.inl h)
          · rcases hl' with rfl | hl'
            · exact Or.inl (Or.inr hx.symm)
            · exact Or.inr ⟨l', hl', hc, hx⟩

theorem foldl_processLink_keys (rc : List PackageId) :
    ∀ (L : List DependencyLink)
      (acc : List PackageId × List (PackageId × PackageRisk)) (x : PackageId),
      (x ∈ (L.foldl (processLink rc) acc).2.map Prod.fst ↔
        x ∈ acc.2.map Prod.fst ∨ ∃ l ∈ L, Collectible rc l ∧ l.toPkg.id = x) := by
  intro L
  induction L with
  | nil => simp
  | cons l L ih =>
    intro acc x
    rw [List.foldl_cons, ih]
    unfold processLink
    by_cases hdev : l.edge.dev_only
    · rw [if_pos hdev]
      simp only [List.mem_cons]
      constructor
      · rintro (h | h)
        · exact Or.inl h
        · obtain ⟨l', hl', hc, hx⟩ := h
          exact Or.inr ⟨l', Or.inr hl', hc, hx⟩
      · rintro (h | ⟨l', hl', hc, hx⟩)
        · exact Or.inl h
        · rcases hl' with rfl | hl'
          · exact absurd hdev (by simp [hc.1])
          · exact Or.inr ⟨l', hl', hc, hx⟩
    · rw [if_neg hdev]
      by_cases hrc : l.toPkg.id ∈ rc
      · rw [if_pos hrc]
        simp only [List.mem_cons]
        constructor
        · rintro (h | h)
          · exact Or.inl h
          · obtain ⟨l', hl', hc, hx⟩ := h
            exact Or.inr ⟨l', Or.inr hl', hc, hx⟩
        · rintro (h | ⟨l', hl', hc, hx⟩)
          · exact Or.inl h
          · rcases hl' with rfl | hl'
            · exact absurd hrc hc.2
            · exact Or.inr ⟨l', hl', hc, hx⟩
      · rw [if_neg hrc]
        simp only [keys_create_or_update, List.mem_cons]
        constructor
        · rintro ((h | rfl) | h)
          · exact Or.inl h
          · exact Or.inr ⟨l, Or.inl rfl,
              ⟨Bool.eq_false_iff.2 hdev, hrc⟩, rfl⟩
          · obtain ⟨l', hl', hc, hx⟩ := h
            exact Or.inr ⟨l', Or.inr hl', hc, hx⟩
        · rintro (h | ⟨l', hl', hc, hx⟩)
          · exact Or.inl (Or.inl h)
          · rcases hl' with rfl | hl'
            · exact Or.inl (Or.inr hx.symm)
            · exact Or.inr ⟨l', hl', hc, hx⟩

theorem foldl_processLink_nodup (rc : List PackageId) :
    ∀ (L : List DependencyLink)
      (acc : List PackageId × List (PackageId × PackageRisk)),
      acc.1.Nodup → ((L.foldl (processLink rc) acc).1).Nodup := by
  intro L
  induction L with
  | nil => intro acc h; exact h
  | cons l L ih =>
    intro acc h
    rw [List.foldl_cons]
    apply ih
    unfold processLink
    split
    · exact h
    · split
      · exact h
      · exact nodup_hsInsert _ h

theorem foldl_processLink_inv (rc : List PackageId) :
    ∀ (L : List DependencyLink)
      (acc : List PackageId × List (PackageId × PackageRisk)),
      VersionsInv acc.2 → VersionsInv ((L.foldl (processLink rc) acc).2) := by
  intro L
  induction L with
  | nil => intro acc h; exact h
  | cons l L ih =>
    intro acc h
    rw [List.foldl_cons]
    apply ih
    unfold processLink
    split
    · exact h
    · split
      · exact h
      · exact versionsInv_create_or_update h l

theorem foldl_processTransLink_keys (rc : List PackageId) :
    ∀ (L : List DependencyLink) (m : List (PackageId × PackageRisk))
      (x : PackageId),
      (x ∈ (L.foldl (processTransLink rc) m).map Prod.fst ↔
        x ∈ m.map Prod.fst ∨ ∃ l ∈ L, Collectible rc l ∧ l.toPkg.id = x) := by
  intro L
  induction L with
  | nil => simp
  | cons l L ih =>
    intro m x
    rw [List.foldl_cons, ih]
    unfold processTransLink
    by_cases hdev : l.edge.dev_only
    · rw [if_pos hdev]
      simp only [List.mem_cons]
      constructor
      · rintro (h | h)
        · exact Or.inl h
        · obtain ⟨l', hl', hc, hx⟩ := h
          exact Or.inr ⟨l', Or.inr hl', hc, hx⟩
      · rintro (h | ⟨l', hl', hc, hx⟩)
        · exact Or.inl h
        · rcases hl' with rfl | hl'
          · exact absurd hdev (by simp [hc.1])
          · exact Or.inr ⟨l', hl', hc, hx⟩
    · rw [if_neg hdev]
      by_cases hrc : l.toPkg.id ∈ rc
      · rw [if_pos hrc]
        simp only [List.mem_cons]
        constructor
        · rintro (h | h)
          · exact Or.inl h
          · obtain ⟨l', hl', hc, hx⟩ := h
            exact Or.inr ⟨l', Or.inr hl', hc, hx⟩
        · rintro (h | ⟨l', hl', hc, hx⟩)
          · exact Or.inl h
          · rcases hl' with rfl | hl'
            · exact absurd hrc hc.2
            · exact Or.inr ⟨l', hl', hc, hx⟩
      · rw [if_neg hrc]
        simp only [keys_create_or_update, List.mem_cons]
        constructor
        · rintro ((h | rfl) | h)
          · exact Or.inl h
          · exact Or.inr ⟨l, Or.inl rfl,
              ⟨Bool.eq_false_iff.2 hdev, hrc⟩, rfl⟩
          · obtain ⟨l', hl', hc, hx⟩ := h
            exact Or.inr ⟨l', Or.inr hl', hc, hx⟩
        · rintro (h | ⟨l', hl', hc, hx⟩)
          · exact Or.inl (Or.inl h)
          · rcases hl' with rfl | hl'
            · exact Or.inl (Or.inr hx.symm)
            · exact Or.inr ⟨l', hl', hc, hx⟩

theorem foldl_processTransLink_inv (rc : List PackageId) :
    ∀ (L : List DependencyLink) (m : List (PackageId × PackageRisk)),
      VersionsInv m → VersionsInv (L.foldl (processTransLink rc) m) := by
  intro L
  induction L with
  | nil => intro m h; exact h
  | cons l L ih =>
    intro m h
    rw [List.foldl_cons]
    apply ih
    unfold processTransLink
    split
    · exact h
    · split
      · exact h
      · exact versionsInv_create_or_update h l

theorem collectAux_fst (g : PackageGraph) (rc : List PackageId) :
    ∀ (roots : List PackageId)
      (acc : List PackageId × List (PackageId × PackageRisk)) (x : PackageId),
      (x ∈ (roots.foldl
          (fun a r => (g.dep_links r).foldl (processLink rc) a) acc).1 ↔
        x ∈ acc.1 ∨
          ∃ r ∈ roots, ∃ l ∈ g.dep_links r, Collectible rc l ∧ l.toPkg.id = x) := by
  intro roots
  induction roots with
  | nil => simp
  | cons r roots ih =>
    intro acc x
    rw [List.foldl_cons, ih, foldl_processLink_fst]
    simp only [List.mem_cons]
    constructor
    · rintro ((h | ⟨l, hl, hc, hx⟩) | ⟨r', hr', l, hl, hc, hx⟩)
      · exact Or.inl h
      · exact Or.inr ⟨r, Or.inl rfl, l, hl, hc, hx⟩
      · exact Or.inr ⟨r', Or.inr hr', l, hl, hc, hx⟩
    · rintro (h | ⟨r', hr', l, hl, hc, hx⟩)
      · exact Or.inl (Or.inl h)
      · rcases hr' with rfl | hr'
        · exact Or.inl (Or.inr ⟨l, hl, hc, hx⟩)
        · exact Or.inr ⟨r', hr', l, hl, hc, hx⟩

theorem collectAux_keys (g : PackageGraph) (rc : List PackageId) :
    ∀ (roots : List PackageId)
      (acc : List PackageId × List (PackageId × PackageRisk)) (x : PackageId),
      (x ∈ (roots.foldl
          (fun a r => (g.dep_links r).foldl (processLink rc) a) acc).2.map Prod.fst ↔
        x ∈ acc.2.map Prod.fst ∨
          ∃ r ∈ roots, ∃ l ∈ g.dep_links r, Collectible rc l ∧ l.toPkg.id = x) := by
  intro roots
  induction roots with
  | nil => simp
  | cons r roots ih =>
    intro acc x
    rw [List.foldl_cons, ih, foldl_processLink_keys]
    simp only [List.mem_cons]
    constructor
    · rintro ((h | ⟨l, hl, hc, hx⟩) | ⟨r', hr', l, hl, hc, hx⟩)
      · exact Or.inl h
      · exact Or.inr ⟨r, Or.inl rfl, l, hl, hc, hx⟩
      · exact Or.inr ⟨r', Or.inr hr', l, hl, hc, hx⟩
    · rintro (h | ⟨r', hr', l, hl, hc, hx⟩)
      · exact Or.inl (Or.inl h)
      · rcases hr' with rfl | hr'
        · exact Or.inl (Or.inr ⟨l, hl, hc, hx⟩)
        · exact Or.inr ⟨r', hr', l, hl, hc, hx⟩

theorem collectAux_nodup (g : PackageGraph) (rc : List PackageId) :
    ∀ (roots : List PackageId)
      (acc : List PackageId × List (PackageId × PackageRisk)),
      acc.1.Nodup →
      ((roots.foldl (fun a r => (g.dep_links r).foldl (processLink rc) a) acc).1).Nodup := by
  intro roots
  induction roots with
  | nil => intro acc h; exact h
  | cons r roots ih =>
    intro acc h
    rw [List.foldl_cons]
    exact ih _ (foldl_processLink_nodup rc _ acc h)

theorem collectAux_inv (g : PackageGraph) (rc : List PackageId) :
    ∀ (roots : List PackageId)
      (acc : List PackageId × List (PackageId × PackageRisk)),
      VersionsInv acc.2 →
      VersionsInv ((roots.foldl (fun a r => (g.dep_links r).foldl (processLink rc) a) acc).2) := by
  intro roots
  induction roots with
  | nil => intro acc h; exact h
  | cons r roots ih =>
    intro acc h
    rw [List.foldl_cons]
    exact ih _ (foldl_processLink_inv rc _ acc h)

theorem mem_collectDirect_fst {g : PackageGraph} {rc roots : List PackageId}
    {x : PackageId} :
    x ∈ (collectDirect g rc roots).1 ↔
      ∃ r ∈ roots, ∃ l ∈ g.dep_links r, Collectible rc l ∧ l.toPkg.id = x := by
  rw [collectDirect, collectAux_fst]
  simp

theorem mem_collectDirect_keys {g : PackageGraph} {rc roots : List PackageId}
    {x : PackageId} :
    x ∈ (collectDirect g rc roots).2.map Prod.fst ↔
      ∃ r ∈ roots, ∃ l ∈ g.dep_links r, Collectible rc l ∧ l.toPkg.id = x := by
  rw [collectDirect, collectAux_keys]
  simp

theorem collectDirect_nodup (g : PackageGraph) (rc roots : List PackageId) :
    ((collectDirect g rc roots).1).Nodup :=
  collectAux_nodup g rc roots ([], []) List.nodup_nil

theorem collectDirect_inv (g : PackageGraph) (rc roots : List PackageId) :
    VersionsInv (collectDirect g rc roots).2 :=
  collectAux_inv g rc roots ([], []) (fun e he => absurd he (List.not_mem_nil e))

/-!  Unfolding the successful run of `analyze_repo` into its phases. -/

theorem analyze_repo_ok {g : PackageGraph} {ps ig : Option (List String)}
    {rs : List String} {md : List PackageId}
    {ar : List (PackageId × PackageRisk)}
    (h : analyze_repo g ps ig = Except.ok (rs, md, ar)) :
    md = (collectDirect g (rootIds g) (analyzedRoots g ps ig)).1 ∧
    ar = ((selectForwardLinks g
            (collectDirect g (rootIds g) (analyzedRoots g ps ig)).1).foldl
          (processTransLink (rootIds g))
          (collectDirect g (rootIds g) (analyzedRoots g ps ig)).2).map
        (analyzeEntry g (rootIds g) (analyzedRoots g ps ig)
          (collectDirect g (rootIds g) (analyzedRoots g ps ig)).1) ∧
    rs = (analyzedRoots g ps ig).map (fun pid => pid.name) := by
  simp only [analyze_repo] at h
  split at h
  · exact absurd h (by simp)
  · simp only [Except.ok.injEq, Prod.mk.injEq] at h
    obtain ⟨h1, h2, h3⟩ := h
    exact ⟨h2.symm, h3.symm, h1.symm⟩

theorem analyzeEntry_shape {g : PackageGraph} {rc rta mds : List PackageId}
    {base : List (PackageId × PackageRisk)} {k : PackageId} {r : PackageRisk}
    (h : (k, r) ∈ base.map (analyzeEntry g rc rta mds)) :
    r.transitive_dependencies =
      (selectForwardLinks g [k]).map (fun l => l.toPkg.id) ∧
    r.exclusive_deps_introduced = get_exclusive_deps g rc mds k := by
  obtain ⟨e, _, heq⟩ := List.mem_map.1 h
  rw [analyzeEntry, Prod.mk.injEq] at heq
  obtain ⟨h1, h2⟩ := heq
  subst h1
  rw [← h2]
  exact ⟨rfl, rfl⟩

theorem analyzeEntry_keys {g : PackageGraph} {rc rta mds : List PackageId}
    (base : List (PackageId × PackageRisk)) (x : PackageId) :
    x ∈ (base.map (analyzeEntry g rc rta mds)).map Prod.fst ↔
      x ∈ base.map Prod.fst := by
  rw [List.map_map]
  have : (Prod.fst ∘ analyzeEntry g rc rta mds) = Prod.fst := by
    funext e
    rfl
  rw [this]

theorem analyzeEntry_inv {g : PackageGraph} {rc rta mds : List PackageId}
    {base : List (PackageId × PackageRisk)} (h : VersionsInv base) :
    VersionsInv (base.map (analyzeEntry g rc rta mds)) := by
  intro e' he'
  obtain ⟨e, he, rfl⟩ := List.mem_map.1 he'
  exact h e he

theorem analyze_keys_char {g : PackageGraph} {ps ig : Option (List String)}
    {rs : List String} {md : List PackageId} {ar : List (PackageId × PackageRisk)}
    (h : analyze_repo g ps ig = Except.ok (rs, md, ar)) (x : PackageId) :
    x ∈ ar.map Prod.fst ↔
      ((∃ r ∈ analyzedRoots g ps ig, ∃ l ∈ g.dep_links r,
          Collectible (rootIds g) l ∧ l.toPkg.id = x) ∨
        ∃ l ∈ selectForwardLinks g md, Collectible (rootIds g) l ∧ l.toPkg.id = x) := by
  obtain ⟨hmd, har, _⟩ := analyze_repo_ok h
  rw [har, analyzeEntry_keys, foldl_processTransLink_keys,
    mem_collectDirect_keys, ← hmd]

theorem analyze_md_char {g : PackageGraph} {ps ig : Option (List String)}
    {rs : List String} {md : List PackageId} {ar : List (PackageId × PackageRisk)}
    (h : analyze_repo g ps ig = Except.ok (rs, md, ar)) (x : PackageId) :
    x ∈ md ↔
      ∃ r ∈ analyzedRoots g ps ig, ∃ l ∈ g.links, l.frm.id = r ∧
        l.edge.dev_only = false ∧ l.toPkg.id ∉ rootIds g ∧ l.toPkg.id = x := by
  obtain ⟨hmd, _, _⟩ := analyze_repo_ok h
  rw [hmd, mem_collectDirect_fst]
  constructor
  · rintro ⟨r, hr, l, hl, hc, hx⟩
    obtain ⟨hlinks, hfrm⟩ := mem_dep_links.1 hl
    exact ⟨r, hr, l, hlinks, hfrm, hc.1, hc.2, hx⟩
  · rintro ⟨r, hr, l, hlinks, hfrm, hdev, hroot, hx⟩
    exact ⟨r, hr, l, mem_dep_links.2 ⟨hlinks, hfrm⟩, ⟨hdev, hroot⟩, hx⟩

theorem analyze_md_nodup {g : PackageGraph} {ps ig : Option (List String)}
    {rs : List String} {md : List PackageId} {ar : List (PackageId × PackageRisk)}
    (h : analyze_repo g ps ig = Except.ok (rs, md, ar)) : md.Nodup := by
  obtain ⟨hmd, _, _⟩ := analyze_repo_ok h
  rw [hmd]
  exact collectDirect_nodup g (rootIds g) (analyzedRoots g ps ig)

theorem analyze_keys_subset_reach {g : PackageGraph}
    {ps ig : Option (List String)} {rs : List String} {md : List PackageId}
    {ar : List (PackageId × PackageRisk)}
    (h : analyze_repo g ps ig = Except.ok (rs, md, ar)) :
    ∀ x ∈ ar.map Prod.fst, x ∈ reachIds g md := by
  intro x hx
  rcases (analyze_keys_char h x).1 hx with ⟨r, hr, l, hl, hc, rfl⟩ | ⟨l, hl, hc, rfl⟩
  · have hmem : l.toPkg.id ∈ md := by
      rw [analyze_md_char h]
      obtain ⟨hlinks, hfrm⟩ := mem_dep_links.1 hl
      exact ⟨r, hr, l, hlinks, hfrm, hc.1, hc.2, rfl⟩
    exact reachIds_subset g md hmem
  · obtain ⟨hlinks, hfrm⟩ := mem_selectForwardLinks.1 hl
    exact reachIds_closed l hlinks hfrm

/-!  Facts about the spec-modelled exclusive-introduction component. -/

theorem mem_mainOwners {g : PackageGraph} {rc mds : List PackageId}
    {n d : PackageId} :
    d ∈ mainOwners g rc mds n ↔ d ∈ mds ∧ ownedBy g rc d n = true := by
  simp [mainOwners, List.mem_filter]

theorem specClosure_subset_allIds {g : PackageGraph} {rc : List PackageId}
    {d n : PackageId} (h : n ∈ specClosure g rc d) : n ∈ allIds g := by
  obtain ⟨l, hl, rfl⟩ := List.mem_map.1 h
  obtain ⟨hlinks, _⟩ := mem_selectForwardLinks.1 hl
  have : l ∈ g.links := List.mem_of_mem_filter hlinks
  rw [allIds, List.append_assoc]
  exact List.mem_append_right _ (List.mem_append_right _
    (List.mem_map.2 ⟨l, this, rfl⟩))

theorem analyze_md_subset_allIds {g : PackageGraph}
    {ps ig : Option (List String)} {rs : List String} {md : List PackageId}
    {ar : List (PackageId × PackageRisk)}
    (h : analyze_repo g ps ig = Except.ok (rs, md, ar)) :
    ∀ x ∈ md, x ∈ allIds g := by
  intro x hx
  obtain ⟨r, _, l, hlinks, _, _, _, rfl⟩ := (analyze_md_char h x).1 hx
  rw [allIds, List.append_assoc]
  exact List.mem_append_right _ (List.mem_append_right _
    (List.mem_map.2 ⟨l, hlinks, rfl⟩))

theorem length_one_mem_singleton {α : Type} {lst : List α} {d : α}
    (hlen : lst.length = 1) (hd : d ∈ lst) : lst = [d] := by
  obtain ⟨a, rfl⟩ := List.length_eq_one.1 hlen
  rw [List.mem_singleton] at hd
  rw [hd]

theorem nodup_all_eq_singleton {α : Type} {lst : List α} {d : α}
    (hn : lst.Nodup) (hd : d ∈ lst) (hall : ∀ y ∈ lst, y = d) : lst = [d] := by
  cases lst with
  | nil => exact absurd hd (List.not_mem_nil d)
  | cons a t =>
    have ha : a = d := hall a (List.mem_cons_self a t)
    subst ha
    cases t with
    | nil => rfl
    | cons b t' =>
      have hb : b = a := hall b (List.mem_cons_of_mem a (List.mem_cons_self b t'))
      rw [List.nodup_cons] at hn
      exact absurd (by rw [← hb]; exact List.mem_cons_self b t') hn.1

/-- The spec's definitional form of exclusive introduction (section 4.5):
`n` is owned by `d` and by no other main dependency.  The owner-count
algorithm of `get_exclusive_deps` computes exactly this set. -/
theorem mem_get_exclusive_deps_iff {g : PackageGraph} {rc mds : List PackageId}
    {d n : PackageId} (hnodup : mds.Nodup) (hd : d ∈ mds)
    (hmds : ∀ x ∈ mds, x ∈ allIds g) :
    n ∈ get_exclusive_deps g rc mds d ↔
      (ownedBy g rc d n = true ∧
        ∀ d' ∈ mds, d' ≠ d → ¬ ownedBy g rc d' n = true) := by
  rw [get_exclusive_deps, List.mem_filter]
  constructor
  · rintro ⟨_, hcond⟩
    simp only [Bool.and_eq_true, decide_eq_true_eq, memB_eq_true] at hcond
    obtain ⟨hlen, hdo⟩ := hcond
    have hsingle : mainOwners g rc mds n = [d] := length_one_mem_singleton hlen hdo
    refine ⟨(mem_mainOwners.1 hdo).2, ?_⟩
    intro d' hd' hne hod'
    have hmem : d' ∈ mainOwners g rc mds n := mem_mainOwners.2 ⟨hd', hod'⟩
    rw [hsingle, List.mem_singleton] at hmem
    exact hne hmem
  · rintro ⟨hod, hothers⟩
    have howners : mainOwners g rc mds n = [d] := by
      apply nodup_all_eq_singleton (List.Nodup.filter _ hnodup)
        (mem_mainOwners.2 ⟨hd, hod⟩)
      intro y hy
      obtain ⟨hy₁, hy₂⟩ := mem_mainOwners.1 hy
      by_contra hne
      exact hothers y hy₁ hne hy₂
    refine ⟨?_, by simp [howners, memB]⟩
    rcases Bool.or_eq_true_iff.1 hod with hcl | heq
    · exact specClosure_subset_allIds (memB_eq_true.1 hcl)
    · rw [decide_eq_true_eq] at heq
      rw [heq]
      exact hmds d hd

/-!  Acyclicity certificates for the concrete graphs. -/

theorem acyclic_of_rank (g : PackageGraph) (rank : PackageId → Nat)
    (h : ∀ l ∈ g.links, rank l.frm.id < rank l.toPkg.id) : AcyclicGraph g := by
  have mono : ∀ a b, Relation.TransGen (edgeRel g) a b → rank a < rank b := by
    intro a b hab
    induction hab with
    | single hstep =>
      obtain ⟨l, hl, h1, h2⟩ := hstep
      rw [← h1, ← h2]
      exact h l hl
    | tail _ hbc ih =>
      obtain ⟨l, hl, h1, h2⟩ := hbc
      have hlt := h l hl
      rw [h1, h2] at hlt
      exact Nat.lt_trans ih hlt
  intro n hn
  exact Nat.lt_irrefl _ (mono n n hn)

/-!  The claims. -/

/-- C1, counterexample: in `gDevClosure` the only link out of `M` is
dev-only, so the claimed closure (dev-only and root-target edges
excluded, as `specClosure` states following the spec words) is empty at
`M`; yet the analysis stores `D` in `transitive_dependencies(M)`, because
the code computes the closure with no edge filtering. -/
theorem C1_counterexample :
    exceptIsOk (analyze_repo gDevClosure none none) = true ∧
    mkId "D" ∈ transDepsOf (analyze_repo gDevClosure none none) (mkId "M") ∧
    mkId "D" ∉ specClosure gDevClosure (rootIds gDevClosure) (mkId "M") ∧
    ¬ Relation.TransGen (edgeRel (filteredGraph gDevClosure (rootIds gDevClosure)))
        (mkId "M") (mkId "D") := by
  refine ⟨by decide, by decide, by decide, fun hTG => ?_⟩
  exact absurd ((mem_forwardTargets_iff
      (filteredGraph gDevClosure (rootIds gDevClosure)) (mkId "M") (mkId "D")).2 hTG)
    (by decide)

/-- C1, amended: for every identity in the registry of a successful run,
the stored `transitive_dependencies` set is exactly the set of identities
reachable from it through one or more dependency edges of any kind —
dev-only and root-target edges included, not excluded — and the identity
itself is excluded whenever the graph is acyclic. -/
theorem C1_amended_transitive_closure {g : PackageGraph}
    {ps ig : Option (List String)} {rs : List String} {md : List PackageId}
    {ar : List (PackageId × PackageRisk)}
    (h : analyze_repo g ps ig = Except.ok (rs, md, ar))
    {k : PackageId} {r : PackageRisk} (hk : (k, r) ∈ ar) :
    (∀ m : PackageId, m ∈ r.transitive_dependencies ↔
      Relation.TransGen (edgeRel g) k m) ∧
    (AcyclicGraph g → k ∉ r.transitive_dependencies) := by
  obtain ⟨_, har, _⟩ := analyze_repo_ok h
  rw [har] at hk
  have hshape := analyzeEntry_shape hk
  constructor
  · intro m
    rw [hshape.1]
    exact mem_forwardTargets_iff g k m
  · intro hacyc hkk
    rw [hshape.1] at hkk
    exact hacyc k ((mem_forwardTargets_iff g k k).1 hkk)

/-- C1, witness for the amended theorem: `gDevClosure` is acyclic, and
`D` is stored for `M` exactly because `M` reaches `D` through its
(dev-only) link. -/
theorem C1_witness :
    AcyclicGraph gDevClosure ∧
    (mkId "D" ∈ riskMDev.transitive_dependencies ↔
      Relation.TransGen (edgeRel gDevClosure) (mkId "M") (mkId "D")) :=
  ⟨acyclic_of_rank gDevClosure nameRank (by decide),
   (C1_amended_transitive_closure
      (rfl : analyze_repo gDevClosure none none =
        Except.ok (["R"], [mkId "M"], [(mkId "M", riskMDev)]))
      (by decide : (mkId "M", riskMDev) ∈ [(mkId "M", riskMDev)])).1 (mkId "D")⟩

/-- C2: for a successful run and a main dependency `d` with registry
record `rd`, (1) an identity is in `exclusive_deps_introduced(d)` exactly
when `d` owns it and no other main dependency owns it; (2) the exclusive
sets of two distinct main dependencies are disjoint; (3) an identity in
the (spec section 4.3) closures of two distinct main dependencies is in no
exclusive set. -/
theorem C2_exclusive_introduction {g : PackageGraph}
    {ps ig : Option (List String)} {rs : List String} {md : List PackageId}
    {ar : List (PackageId × PackageRisk)}
    (h : analyze_repo g ps ig = Except.ok (rs, md, ar))
    {d : PackageId} {rd : PackageRisk} (hd : d ∈ md) (hrec : (d, rd) ∈ ar) :
    (∀ n : PackageId, n ∈ rd.exclusive_deps_introduced ↔
      (ownedBy g (rootIds g) d n = true ∧
        ∀ d' ∈ md, d' ≠ d → ¬ ownedBy g (rootIds g) d' n = true)) ∧
    (∀ (d₂ : PackageId) (rd₂ : PackageRisk), d₂ ∈ md → (d₂, rd₂) ∈ ar →
      d₂ ≠ d → ∀ n : PackageId, n ∈ rd.exclusive_deps_introduced →
        n ∉ rd₂.exclusive_deps_introduced) ∧
    (∀ d₂ ∈ md, d₂ ≠ d →
      ∀ n : PackageId, n ∈ specClosure g (rootIds g) d →
        n ∈ specClosure g (rootIds g) d₂ →
      ∀ (d₃ : PackageId) (rd₃ : PackageRisk), d₃ ∈ md → (d₃, rd₃) ∈ ar →
        n ∉ rd₃.exclusive_deps_introduced) := by
  obtain ⟨hmd, har, _⟩ := analyze_repo_ok h
  have hiff : ∀ (d₀ : PackageId) (rd₀ : PackageRisk), d₀ ∈ md → (d₀, rd₀) ∈ ar →
      ∀ n : PackageId, (n ∈ rd₀.exclusive_deps_introduced ↔
        (ownedBy g (rootIds g) d₀ n = true ∧
          ∀ d' ∈ md, d' ≠ d₀ → ¬ ownedBy g (rootIds g) d' n = true)) := by
    intro d₀ rd₀ hd₀ hrec₀ n
    rw [har] at hrec₀
    have hshape := analyzeEntry_shape hrec₀
    rw [hshape.2, ← hmd]
    exact mem_get_exclusive_deps_iff (analyze_md_nodup h) hd₀
      (analyze_md_subset_allIds h)
  refine ⟨hiff d rd hd hrec, ?_, ?_⟩
  · intro d₂ rd₂ hd₂ hrec₂ hne n hn hn₂
    obtain ⟨_, hothers⟩ := (hiff d rd hd hrec n).1 hn
    obtain ⟨hod₂, _⟩ := (hiff d₂ rd₂ hd₂ hrec₂ n).1 hn₂
    exact hothers d₂ hd₂ hne hod₂
  · intro d₂ hd₂ hne n hcl hcl₂ d₃ rd₃ hd₃ hrec₃ hn₃
    obtain ⟨_, hothers₃⟩ := (hiff d₃ rd₃ hd₃ hrec₃ n).1 hn₃
    have hod : ownedBy g (rootIds g) d n = true := by
      simp [ownedBy, memB, hcl]
    have hod₂ : ownedBy g (rootIds g) d₂ n = true := by
      simp [ownedBy, memB, hcl₂]
    by_cases hd3 : d = d₃
    · subst hd3
      exact hothers₃ d₂ hd₂ (fun hc => hne hc) hod₂
    · exact hothers₃ d hd hd3 hod

/-- C2, witness: in spec scenario B (`R` depends on `X`; `X` on `P` and
`Q`) the registry record of the sole main dependency `X` contains `P`
exactly because `X` owns `P` and no other main dependency does. -/
theorem C2_witness :
    mkId "P" ∈ riskXScenB.exclusive_deps_introduced ↔
      (ownedBy gScenB (rootIds gScenB) (mkId "X") (mkId "P") = true ∧
        ∀ d' ∈ [mkId "X"], d' ≠ mkId "X" →
          ¬ ownedBy gScenB (rootIds gScenB) d' (mkId "P") = true) :=
  (C2_exclusive_introduction
    (rfl : analyze_repo gScenB none none = Except.ok
      (["R"], [mkId "X"],
        [(mkId "X", riskXScenB), (mkId "P", riskPScenB), (mkId "Q", riskQScenB)]))
    (by decide : mkId "X" ∈ [mkId "X"])
    (by decide : (mkId "X", riskXScenB) ∈
      [(mkId "X", riskXScenB), (mkId "P", riskPScenB), (mkId "Q", riskQScenB)])).1
    (mkId "P")

/-- C3: the main-dependency set of a successful run contains exactly the
identities that are the target of at least one non-dev link going out of
some analyzed root, excluding targets that are themselves workspace
members. -/
theorem C3_main_dependency_set {g : PackageGraph}
    {ps ig : Option (List String)} {rs : List String} {md : List PackageId}
    {ar : List (PackageId × PackageRisk)}
    (h : analyze_repo g ps ig = Except.ok (rs, md, ar)) (x : PackageId) :
    x ∈ md ↔
      ∃ r ∈ analyzedRoots g ps ig, ∃ l ∈ g.links, l.frm.id = r ∧
        l.edge.dev_only = false ∧ l.toPkg.id ∉ rootIds g ∧ l.toPkg.id = x :=
  analyze_md_char h x

/-- C3, witness: in scenario B the main-dependency set is exactly `X`,
the target of the only non-dev, non-root link out of the root `R`. -/
theorem C3_witness :
    mkId "X" ∈ [mkId "X"] ↔
      ∃ r ∈ analyzedRoots gScenB none none, ∃ l ∈ gScenB.links, l.frm.id = r ∧
        l.edge.dev_only = false ∧ l.toPkg.id ∉ rootIds gScenB ∧
        l.toPkg.id = mkId "X" :=
  C3_main_dependency_set
    (rfl : analyze_repo gScenB none none = Except.ok
      (["R"], [mkId "X"],
        [(mkId "X", riskXScenB), (mkId "P", riskPScenB), (mkId "Q", riskQScenB)]))
    (mkId "X")

/-- C4, counterexample: in `gDevPath` every path from the analyzed root
`R` to `B` crosses the dev-only link from `M` to `A` (there is no dev-free
path, as the last two conjuncts state), yet `B` is in the registry: the
forward traversal walks through dev-only links and inserts the non-dev
targets found behind them. -/
theorem C4_counterexample :
    exceptIsOk (analyze_repo gDevPath none none) = true ∧
    mkId "B" ∈ registryKeysOf (analyze_repo gDevPath none none) ∧
    mkId "B" ∉ reachIds (nonDevGraph gDevPath) (analyzedRoots gDevPath none none) ∧
    ¬ ∃ r ∈ analyzedRoots gDevPath none none,
        Relation.ReflTransGen (edgeRel (nonDevGraph gDevPath)) r (mkId "B") := by
  refine ⟨by decide, by decide, by decide, fun hex => ?_⟩
  obtain ⟨r, hr, hrtg⟩ := hex
  exact absurd (reachIds_complete hr hrtg) (by decide)

/-- C4, amended: an identity that is not reachable — through links of any
kind — from the main-dependency set never appears in the registry.  In
particular a dev-only direct target of a root with no other path to it
(spec scenario D) is absent, because it neither joins the main-dependency
set nor is reachable from it; but an identity that sits behind a dev-only
link deeper in the graph can still appear. -/
theorem C4_amended_registry_reach {g : PackageGraph}
    {ps ig : Option (List String)} {rs : List String} {md : List PackageId}
    {ar : List (PackageId × PackageRisk)}
    (h : analyze_repo g ps ig = Except.ok (rs, md, ar))
    {x : PackageId} (hx : x ∉ reachIds g md) :
    x ∉ ar.map Prod.fst :=
  fun hmem => hx (analyze_keys_subset_reach h x hmem)

/-- C4, witness for the amended theorem: in `gDevPath` the root `R` is not
reachable from the main-dependency set, and indeed has no registry
record. -/
theorem C4_witness :
    mkId "R" ∉ ([(mkId "M", riskMPath), (mkId "B", riskBPath)]).map Prod.fst :=
  C4_amended_registry_reach
    (rfl : analyze_repo gDevPath none none = Except.ok
      (["R"], [mkId "M"], [(mkId "M", riskMPath), (mkId "B", riskBPath)]))
    (by decide)

/-- C5: whenever the root-set filter leaves no analyzed root, the analysis
returns the fatal error and produces no output. -/
theorem C5_empty_root_set_error (g : PackageGraph)
    (ps ig : Option (List String)) (h : analyzedRoots g ps ig = []) :
    analyze_repo g ps ig =
      Except.error "dephell: no package to analyze was found" := by
  simp [analyze_repo, h]

/-- C5, witness: spec scenario C — workspace members `A` and `B` with
allow-list `["C"]` yield the empty-root-set error. -/
theorem C5_witness :
    analyze_repo gAB (some ["C"]) none =
      Except.error "dephell: no package to analyze was found" :=
  C5_empty_root_set_error gAB (some ["C"]) none (by decide)

/-- C6: the root-set filter keeps exactly the workspace members named in
the allow-list when one is present, else drops exactly the members named
in the deny-list when one is present, else keeps every member. -/
theorem C6_root_filter_policy (g : PackageGraph) :
    (∀ (al : List String) (ig : Option (List String)) (x : PackageId),
      x ∈ analyzedRoots g (some al) ig ↔ x ∈ rootIds g ∧ x.name ∈ al) ∧
    (∀ (dl : List String) (x : PackageId),
      x ∈ analyzedRoots g none (some dl) ↔ x ∈ rootIds g ∧ x.name ∉ dl) ∧
    (∀ x : PackageId, x ∈ analyzedRoots g none none ↔ x ∈ rootIds g) := by
  refine ⟨fun al ig x => ?_, fun dl x => ?_, fun x => Iff.rfl⟩
  · simp [analyzedRoots, List.mem_filter, memB]
  · simp [analyzedRoots, List.mem_filter, memB]

/-- C7: a command line carrying both an allow-list and a deny-list is
rejected by the declared argument conflict before any analysis runs, so
the analysis never silently applies one of the two. -/
theorem C7_conflicting_filters_rejected (g : PackageGraph)
    (al dl : List String) :
    run_analysis g (some al) (some dl) = Except.error cliConflictMsg := rfl

/-- C8: when the graph is acyclic, no registry identity of a successful
run is a member of its own `transitive_dependencies` set. -/
theorem C8_acyclic_no_self_dependency {g : PackageGraph}
    {ps ig : Option (List String)} {rs : List String} {md : List PackageId}
    {ar : List (PackageId × PackageRisk)}
    (hacyc : AcyclicGraph g)
    (h : analyze_repo g ps ig = Except.ok (rs, md, ar))
    {k : PackageId} {r : PackageRisk} (hk : (k, r) ∈ ar) :
    k ∉ r.transitive_dependencies := by
  obtain ⟨_, har, _⟩ := analyze_repo_ok h
  rw [har] at hk
  have hshape := analyzeEntry_shape hk
  intro hkk
  rw [hshape.1] at hkk
  exact hacyc k ((mem_forwardTargets_iff g k k).1 hkk)

/-- C8, witness: in the acyclic graph `gDevClosure`, the record of `M`
does not list `M` among its transitive dependencies. -/
theorem C8_witness : mkId "M" ∉ riskMDev.transitive_dependencies :=
  C8_acyclic_no_self_dependency
    (acyclic_of_rank gDevClosure nameRank (by decide))
    (rfl : analyze_repo gDevClosure none none =
      Except.ok (["R"], [mkId "M"], [(mkId "M", riskMDev)]))
    (by decide : (mkId "M", riskMDev) ∈ [(mkId "M", riskMDev)])

/-- C9: re-discovering an identity that already has a registry record
only inserts the observed version into `versions`; every other field of
the record is unchanged, records under other keys are untouched, and no
record is ever removed by a create-or-update operation. -/
theorem C9_rediscovery_frame {m : List (PackageId × PackageRisk)}
    {dep_link : DependencyLink} {r : PackageRisk}
    (h : lookupRisk m dep_link.toPkg.id = some r) :
    (∃ r', lookupRisk (create_or_update_dependency m dep_link)
        dep_link.toPkg.id = some r' ∧
      r'.versions = hsInsert r.versions dep_link.toPkg.version ∧
      r'.name = r.name ∧ r'.repo = r.repo ∧ r'.description = r.description ∧
      r'.manifest_path = r.manifest_path ∧ r'.used = r.used ∧
      r'.transitive_dependencies = r.transitive_dependencies ∧
      r'.root_importers = r.root_importers ∧
      r'.exclusive_deps_introduced = r.exclusive_deps_introduced ∧
      r'.loc = r.loc ∧ r'.rust_loc = r.rust_loc ∧ r'.unsafe_loc = r.unsafe_loc ∧
      r'.stargazers_count = r.stargazers_count ∧
      r'.crates_io_dependent = r.crates_io_dependent) ∧
    (∀ k, k ≠ dep_link.toPkg.id →
      lookupRisk (create_or_update_dependency m dep_link) k = lookupRisk m k) ∧
    (∀ (m' : List (PackageId × PackageRisk)) (l' : DependencyLink)
      (k : PackageId), (lookupRisk m' k).isSome = true →
      (lookupRisk (create_or_update_dependency m' l') k).isSome = true) :=
  ⟨⟨{ r with versions := hsInsert r.versions dep_link.toPkg.version },
    (create_or_update_occupied h).1, rfl, rfl, rfl, rfl, rfl, rfl, rfl, rfl,
    rfl, rfl, rfl, rfl, rfl, rfl⟩,
   (create_or_update_occupied h).2,
   fun m' l' k hk => create_or_update_keeps_isSome m' l' k hk⟩

/-- C9, witness: updating a one-record registry at its existing key
changes only `versions`. -/
theorem C9_witness :
    lookupRisk [(mkId "A", PackageRisk.default)]
      ((mkLink "R" "A" false).toPkg.id) = some PackageRisk.default ∧
    (∃ r', lookupRisk
        (create_or_update_dependency [(mkId "A", PackageRisk.default)]
          (mkLink "R" "A" false))
        ((mkLink "R" "A" false).toPkg.id) = some r' ∧
      r'.versions = hsInsert PackageRisk.default.versions
        ((mkLink "R" "A" false).toPkg.version) ∧
      r'.name = PackageRisk.default.name ∧
      r'.repo = PackageRisk.default.repo ∧
      r'.description = PackageRisk.default.description ∧
      r'.manifest_path = PackageRisk.default.manifest_path ∧
      r'.used = PackageRisk.default.used ∧
      r'.transitive_dependencies = PackageRisk.default.transitive_dependencies ∧
      r'.root_importers = PackageRisk.default.root_importers ∧
      r'.exclusive_deps_introduced = PackageRisk.default.exclusive_deps_introduced ∧
      r'.loc = PackageRisk.default.loc ∧
      r'.rust_loc = PackageRisk.default.rust_loc ∧
      r'.unsafe_loc = PackageRisk.default.unsafe_loc ∧
      r'.stargazers_count = PackageRisk.default.stargazers_count ∧
      r'.crates_io_dependent = PackageRisk.default.crates_io_dependent) :=
  ⟨by decide, (C9_rediscovery_frame (by decide)).1⟩

/-- C10: every record of the registry of a successful run has a
`versions` set with exactly one element: the registry is keyed on the
full (name, version, source) identity, so one key only ever observes one
version string. -/
theorem C10_versions_singleton {g : PackageGraph}
    {ps ig : Option (List String)} {rs : List String} {md : List PackageId}
    {ar : List (PackageId × PackageRisk)}
    (h : analyze_repo g ps ig = Except.ok (rs, md, ar)) :
    ∀ e ∈ ar, e.2.versions.length = 1 := by
  obtain ⟨_, har, _⟩ := analyze_repo_ok h
  have hinv : VersionsInv ar := by
    rw [har]
    exact analyzeEntry_inv
      (foldl_processTransLink_inv _ _ _ (collectDirect_inv _ _ _))
  intro e he
  rw [hinv e he]
  rfl

/-- C10, witness: the single record of the `gDevClosure` analysis holds
exactly one version string. -/
theorem C10_witness : (mkId "M", riskMDev).2.versions.length = 1 :=
  C10_versions_singleton
    (rfl : analyze_repo gDevClosure none none =
      Except.ok (["R"], [mkId "M"], [(mkId "M", riskMDev)]))
    (mkId "M", riskMDev) (by decide)
